import Mathlib

/-!
Verification of the table-driven lexer in `lexer/tblgen-lexer.go`.

The Go source is embedded shallowly: byte buffers are `List Nat`, Go runes are
`Int` (the lexer uses `-1` as its end-of-input sentinel), and each Go function
or method becomes a Lean function of the same name.  The `for` loops of
`skipNontokens`, `scanIdentifier`, `scanNumber` and `scanQuote` are expressed
with an explicit fuel argument initialised to `lexMeasure lex + 1`; the measure
strictly decreases on every iteration that the Go loop can actually take, so
the fuel never runs out on the loops that terminate.  The quote-scanning loop
`for lex.r != '"'` does not test for end of input; once the input is exhausted
`next` leaves the state fixed with `r = -1`, so the Go loop spins forever.
That divergence is modelled by `Option`: `scanQuote` (and hence `NextToken`)
returns `none` exactly when the Go code fails to terminate.
-/

set_option autoImplicit false
set_option maxRecDepth 8000

namespace TblgenLexer

/-- The `TokenName` enumeration of the Go source (`ERROR` through `EQUALS`). -/
inductive TokenName where
  | ERROR | EOF | COMMENT | IDENTIFIER | NUMBER | QUOTE
  | PLUS | MINUS | MULTIPLY | PERIOD | BACKSLASH | COLON | PERCENT | PIPE
  | EXCLAMATION | QUESTION | POUND | AMPERSAND | SEMI | COMMA
  | L_PAREN | R_PAREN | L_ANG | R_ANG | L_BRACE | R_BRACE | L_BRACKET | R_BRACKET
  | EQUALS
deriving DecidableEq

/-- The `Token` struct: kind, consumed bytes (`Val` is a Go string, i.e. bytes),
and byte offset of origin. -/
structure Token where
  name : TokenName
  val : List Nat
  pos : Nat
deriving DecidableEq

/-- `makeErrorToken` of the Go source. -/
def makeErrorToken (pos : Nat) : Token := { name := TokenName.ERROR, val := [], pos := pos }

/-- Byte at index `i` of a buffer (0 when out of range); Go's `buf[i]` is only
used at indices known to be in bounds. -/
def byteAt (buf : List Nat) (i : Nat) : Nat := buf.getD i 0

/-- The half-open byte slice `buf[a:b]` of the Go source. -/
def extract (buf : List Nat) (a b : Nat) : List Nat := (buf.drop a).take (b - a)

/-- The sparse Go array literal `opTable`; unset entries are `ERROR` (the zero
value of `TokenName`).  The largest index in the literal is `'}' = 125`, so the
array has length 126. -/
def opCharName (b : Nat) : TokenName :=
  if b = 43 then TokenName.PLUS
  else if b = 45 then TokenName.MINUS
  else if b = 42 then TokenName.MULTIPLY
  else if b = 46 then TokenName.PERIOD
  else if b = 92 then TokenName.BACKSLASH
  else if b = 58 then TokenName.COLON
  else if b = 37 then TokenName.PERCENT
  else if b = 124 then TokenName.PIPE
  else if b = 33 then TokenName.EXCLAMATION
  else if b = 63 then TokenName.QUESTION
  else if b = 35 then TokenName.POUND
  else if b = 38 then TokenName.AMPERSAND
  else if b = 59 then TokenName.SEMI
  else if b = 44 then TokenName.COMMA
  else if b = 40 then TokenName.L_PAREN
  else if b = 41 then TokenName.R_PAREN
  else if b = 60 then TokenName.L_ANG
  else if b = 62 then TokenName.R_ANG
  else if b = 123 then TokenName.L_BRACE
  else if b = 125 then TokenName.R_BRACE
  else if b = 91 then TokenName.L_BRACKET
  else if b = 93 then TokenName.R_BRACKET
  else if b = 61 then TokenName.EQUALS
  else TokenName.ERROR

/-- `opTable`, the fixed operator lookup array of length 126. -/
def opTable : List TokenName := (List.range 126).map opCharName

/-- `isAlpha` of the Go source: ASCII letter or underscore. -/
def isAlpha (r : Int) : Bool :=
  (decide (97 ≤ r) && decide (r ≤ 122)) ||
  (decide (65 ≤ r) && decide (r ≤ 90)) || decide (r = 95)

/-- `isDigit` of the Go source: ASCII digit. -/
def isDigit (r : Int) : Bool := decide (48 ≤ r) && decide (r ≤ 57)

/-- The identifier-byte class: bytes whose rune is an ASCII letter, digit or
underscore. -/
def identByte (b : Nat) : Bool := isAlpha (b : Int) || isDigit (b : Int)

/-- Go's `utf8.RuneError` (U+FFFD). -/
def RuneError : Int := 65533

/-- Go's `utf8.DecodeRune`: decode the first rune of `p`, returning the rune
and its byte width.  Malformed input yields `(RuneError, 1)` (or `(RuneError, 0)`
on empty input).  Lead bytes `0xE0/0xED/0xF0/0xF4` restrict the first
continuation byte exactly as the Go `acceptRanges` table does. -/
def utf8DecodeRune (p : List Nat) : Int × Nat :=
  match p with
  | [] => (RuneError, 0)
  | b0 :: rest =>
    if b0 < 128 then ((b0 : Int), 1)
    else if b0 < 194 then (RuneError, 1)
    else if b0 < 224 then
      match rest with
      | b1 :: _ =>
        if 128 ≤ b1 ∧ b1 ≤ 191 then ((((b0 % 32) * 64 + b1 % 64 : Nat) : Int), 2)
        else (RuneError, 1)
      | [] => (RuneError, 1)
    else if b0 < 240 then
      match rest with
      | b1 :: b2 :: _ =>
        if (if b0 = 224 then 160 else 128) ≤ b1 ∧ b1 ≤ (if b0 = 237 then 159 else 191) then
          if 128 ≤ b2 ∧ b2 ≤ 191 then
            ((((b0 % 16) * 4096 + (b1 % 64) * 64 + b2 % 64 : Nat) : Int), 3)
          else (RuneError, 1)
        else (RuneError, 1)
      | _ => (RuneError, 1)
    else if b0 < 245 then
      match rest with
      | b1 :: b2 :: b3 :: _ =>
        if (if b0 = 240 then 144 else 128) ≤ b1 ∧ b1 ≤ (if b0 = 244 then 143 else 191) then
          if 128 ≤ b2 ∧ b2 ≤ 191 then
            if 128 ≤ b3 ∧ b3 ≤ 191 then
              ((((b0 % 8) * 262144 + (b1 % 64) * 4096 + (b2 % 64) * 64 + b3 % 64 : Nat) : Int), 4)
            else (RuneError, 1)
          else (RuneError, 1)
        else (RuneError, 1)
      | _ => (RuneError, 1)
    else (RuneError, 1)

/-- The `Lexer` struct: buffer, current rune (`-1` once exhausted), offset of
the current rune, and offset where the next rune starts. -/
structure Lexer where
  buf : List Nat
  r : Int
  rpos : Nat
  nextpos : Nat
deriving DecidableEq

/-- What `next` computes at a position known to be in bounds: the fast single
byte path for `r ≤ utf8.RuneSelf` (note the Go source tests `r > utf8.RuneSelf`,
so byte 128 itself takes the fast path), otherwise `utf8.DecodeRune`. -/
def lexDecode (buf : List Nat) (pos : Nat) : Int × Nat :=
  match buf.drop pos with
  | [] => (-1, 0)
  | b :: _ => if 128 < (b : Int) then utf8DecodeRune (buf.drop pos) else ((b : Int), 1)

/-- The `next` method: advance to the rune starting at `nextpos`, or set the
sentinel state once the buffer is exhausted. -/
def next (lex : Lexer) : Lexer :=
  if lex.nextpos < lex.buf.length then
    { lex with
      rpos := lex.nextpos,
      r := (lexDecode lex.buf lex.nextpos).1,
      nextpos := lex.nextpos + (lexDecode lex.buf lex.nextpos).2 }
  else
    { lex with rpos := lex.buf.length, r := -1 }

/-- `NewLexer`: build the state `{buf, -1, 0, 0}` and prime it with `next`. -/
def newLexer (buf : List Nat) : Lexer := next { buf := buf, r := -1, rpos := 0, nextpos := 0 }

/-- Fuel measure for the scanning loops: strictly decreases across `next`
whenever the current state has a rune or unread bytes remain. -/
def lexMeasure (lex : Lexer) : Nat :=
  2 * (lex.buf.length - lex.nextpos) + (if 0 ≤ lex.r then 1 else 0)

/-- The loop of `skipNontokens`: skip space, tab, newline, carriage return. -/
def skipGo : Nat → Lexer → Lexer
  | 0, lex => lex
  | f + 1, lex =>
    if lex.r = 32 ∨ lex.r = 9 ∨ lex.r = 10 ∨ lex.r = 13 then skipGo f (next lex) else lex

/-- `skipNontokens` of the Go source. -/
def skipNontokens (lex : Lexer) : Lexer := skipGo (lexMeasure lex + 1) lex

/-- The loop of `scanIdentifier`: consume letters, digits and underscores. -/
def identGo : Nat → Lexer → Lexer
  | 0, lex => lex
  | f + 1, lex => if isAlpha lex.r || isDigit lex.r then identGo f (next lex) else lex

/-- `scanIdentifier` of the Go source. -/
def scanIdentifier (lex : Lexer) : Token × Lexer :=
  let startpos := lex.rpos
  let lex2 := identGo (lexMeasure lex + 1) lex
  ({ name := TokenName.IDENTIFIER, val := extract lex.buf startpos lex2.rpos, pos := startpos },
   lex2)

/-- The loop of `scanNumber`: consume digits. -/
def numberGo : Nat → Lexer → Lexer
  | 0, lex => lex
  | f + 1, lex => if isDigit lex.r then numberGo f (next lex) else lex

/-- `scanNumber` of the Go source. -/
def scanNumber (lex : Lexer) : Token × Lexer :=
  let startpos := lex.rpos
  let lex2 := numberGo (lexMeasure lex + 1) lex
  ({ name := TokenName.NUMBER, val := extract lex.buf startpos lex2.rpos, pos := startpos },
   lex2)

/-- The loop `for lex.r != '"'` of `scanQuote`.  Once the input is exhausted,
`next` maps the state `{r = -1, rpos = len, nextpos = len}` to itself, so the
Go loop never exits; `none` marks exactly that divergence. -/
def quoteGo : Nat → Lexer → Option Lexer
  | 0, _ => none
  | f + 1, lex =>
    if lex.r = 34 then some lex
    else if lex.r < 0 ∧ lex.buf.length ≤ lex.nextpos then none
    else quoteGo f (next lex)

/-- `scanQuote` of the Go source, including its (unreachable) `lex.r < 0`
check after the loop.  `none` means the Go code diverges. -/
def scanQuote (lex : Lexer) : Option (Token × Lexer) :=
  let startpos := lex.rpos
  match quoteGo (lexMeasure (next lex) + 1) (next lex) with
  | none => none
  | some lex2 =>
    if lex2.r < 0 then some (makeErrorToken startpos, lex2)
    else
      let lex3 := next lex2
      some ({ name := TokenName.QUOTE, val := extract lex.buf startpos lex3.rpos,
              pos := startpos }, lex3)

/-- `NextToken` of the Go source: skip whitespace; return `EOF` when exhausted;
try the bounded operator-table lookup; then identifier, number and quoted
string classification; otherwise an error token at the current offset.
`none` means the Go call diverges (possible only inside `scanQuote`). -/
def nextToken (lex0 : Lexer) : Option (Token × Lexer) :=
  let lex := skipNontokens lex0
  if lex.r < 0 then
    some ({ name := TokenName.EOF, val := [], pos := lex.nextpos }, lex)
  else if lex.r.toNat < opTable.length ∧
      opTable.getD lex.r.toNat TokenName.ERROR ≠ TokenName.ERROR then
    let opName := opTable.getD lex.r.toNat TokenName.ERROR
    let startpos := lex.rpos
    let lex2 := next lex
    some ({ name := opName, val := extract lex2.buf startpos lex2.rpos, pos := startpos }, lex2)
  else if isAlpha lex.r then some (scanIdentifier lex)
  else if isDigit lex.r then some (scanNumber lex)
  else if lex.r = 34 then scanQuote lex
  else some (makeErrorToken lex.rpos, lex)

/-- Drive the scanner: the tokens of up to `n` calls to `nextToken` and the
final state; a diverging call ends the list. -/
def callN : Nat → Lexer → List Token × Lexer
  | 0, lex => ([], lex)
  | n + 1, lex =>
    match nextToken lex with
    | none => ([], lex)
    | some (t, lex2) =>
      let rest := callN n lex2
      (t :: rest.1, rest.2)

/-- The token list of up to `n` calls to `nextToken`. -/
def tokensN (n : Nat) (lex : Lexer) : List Token := (callN n lex).1

/-- Reconstruction driver for the coverage property: each call contributes the
whitespace run it skipped followed by the returned token's text; the flag
records whether `EOF` was reached within `n` calls. -/
def scanConcat : Nat → Lexer → List Nat × Bool
  | 0, _ => ([], false)
  | n + 1, lex =>
    match nextToken lex with
    | none => ([], false)
    | some (t, lex2) =>
      let gap := extract lex.buf lex.rpos (skipNontokens lex).rpos
      if t.name = TokenName.EOF then (gap ++ t.val, true)
      else
        let rest := scanConcat n lex2
        (gap ++ t.val ++ rest.1, rest.2)

/-! ### Byte-slice lemmas -/

theorem drop_byteAt {buf : List Nat} {n : Nat} (h : n < buf.length) :
    buf.drop n = byteAt buf n :: buf.drop (n + 1) := by
  rw [List.drop_eq_getElem_cons h, byteAt, List.getD_eq_getElem _ _ h]

theorem extract_length {buf : List Nat} {a b : Nat} (hab : a ≤ b) (hb : b ≤ buf.length) :
    (extract buf a b).length = b - a := by
  simp only [extract, List.length_take, List.length_drop]
  omega

theorem extract_append {buf : List Nat} {a b c : Nat} (hab : a ≤ b) (hbc : b ≤ c) :
    extract buf a b ++ extract buf b c = extract buf a c := by
  have h1 : c - a = (b - a) + (c - b) := by omega
  have h2 : a + (b - a) = b := by omega
  rw [extract, extract, extract, h1, List.take_add, List.drop_drop, h2]

theorem extract_all (buf : List Nat) : extract buf 0 buf.length = buf := by
  simp [extract]

theorem take_takeWhile {α : Type} (p : α → Bool) (l : List α) :
    l.take (l.takeWhile p).length = l.takeWhile p :=
  (List.prefix_iff_eq_take.mp (List.takeWhile_prefix p)).symm

/-! ### Facts about the UTF-8 decoder -/

theorem utf8_r_nonneg (p : List Nat) : 0 ≤ (utf8DecodeRune p).1 := by
  unfold utf8DecodeRune
  repeat' split
  all_goals simp [RuneError]
  all_goals omega

theorem utf8_w_bounds (b0 : Nat) (rest : List Nat) :
    1 ≤ (utf8DecodeRune (b0 :: rest)).2 ∧ (utf8DecodeRune (b0 :: rest)).2 ≤ rest.length + 1 := by
  unfold utf8DecodeRune
  repeat' split
  all_goals simp_all
  all_goals omega

theorem utf8_min (b0 : Nat) (rest : List Nat) (hb : 128 < b0) :
    (utf8DecodeRune (b0 :: rest)).1 = RuneError ∨ 128 ≤ (utf8DecodeRune (b0 :: rest)).1 := by
  unfold utf8DecodeRune
  repeat' split
  all_goals simp_all [RuneError]
  all_goals omega

theorem utf8_cont (b0 : Nat) (rest : List Nat) (j : Nat)
    (hj : j + 1 < (utf8DecodeRune (b0 :: rest)).2) :
    128 ≤ byteAt rest j ∧ byteAt rest j ≤ 191 := by
  unfold utf8DecodeRune at hj
  repeat' split at hj
  all_goals simp_all [byteAt]
  all_goals (rcases j with _ | _ | _ | j <;> simp_all [List.getD] <;> omega)

/-! ### Facts about the lexer's decode step -/

theorem lexDecode_eq (buf : List Nat) (pos : Nat) (h : pos < buf.length) :
    lexDecode buf pos =
      if 128 < (byteAt buf pos : Int) then utf8DecodeRune (buf.drop pos)
      else ((byteAt buf pos : Int), 1) := by
  unfold lexDecode
  rw [drop_byteAt h]

theorem lexDecode_spec (buf : List Nat) (pos : Nat) (h : pos < buf.length) :
    (byteAt buf pos ≤ 128 ∧ lexDecode buf pos = ((byteAt buf pos : Int), 1)) ∨
    (128 < byteAt buf pos ∧ lexDecode buf pos = utf8DecodeRune (buf.drop pos)) := by
  rw [lexDecode_eq buf pos h]
  by_cases hb : 128 < byteAt buf pos
  · right
    rw [if_pos (by omega)]
    exact ⟨hb, rfl⟩
  · left
    rw [if_neg (by omega)]
    exact ⟨by omega, rfl⟩

theorem lexDecode_w_bounds (buf : List Nat) (pos : Nat) (h : pos < buf.length) :
    1 ≤ (lexDecode buf pos).2 ∧ pos + (lexDecode buf pos).2 ≤ buf.length := by
  rcases lexDecode_spec buf pos h with ⟨_, he⟩ | ⟨_, he⟩
  · rw [he]; omega
  · rw [he]
    have hd := drop_byteAt h
    rw [hd]
    have := utf8_w_bounds (byteAt buf pos) (buf.drop (pos + 1))
    have hl : (buf.drop (pos + 1)).length = buf.length - (pos + 1) := List.length_drop _ _
    omega

theorem lexDecode_r_nonneg (buf : List Nat) (pos : Nat) (h : pos < buf.length) :
    0 ≤ (lexDecode buf pos).1 := by
  rcases lexDecode_spec buf pos h with ⟨_, he⟩ | ⟨_, he⟩
  · rw [he]; exact Int.ofNat_nonneg _  -- cast is nonneg
  · rw [he]; exact utf8_r_nonneg _

theorem lexDecode_slow_cases (buf : List Nat) (pos : Nat) (h : pos < buf.length)
    (hb : 128 < byteAt buf pos) :
    (lexDecode buf pos).1 = RuneError ∨ 128 ≤ (lexDecode buf pos).1 := by
  rcases lexDecode_spec buf pos h with ⟨hle, _⟩ | ⟨_, he⟩
  · omega
  · rw [he, drop_byteAt h]
    exact utf8_min _ _ hb

theorem lexDecode_r_34 (buf : List Nat) (pos : Nat) (h : pos < buf.length) :
    (lexDecode buf pos).1 = 34 ↔ byteAt buf pos = 34 := by
  rcases lexDecode_spec buf pos h with ⟨_, he⟩ | ⟨hb, _⟩
  · rw [he]
    constructor
    · intro hr
      simp only [] at hr
      omega
    · intro hb; rw [hb]; rfl
  · rcases lexDecode_slow_cases buf pos h hb with hr | hr
    · rw [hr]
      simp only [RuneError]
      omega
    · omega

/-! ### The scanner invariant -/

/-- Scanner state invariant: either the current rune is the decode of the
buffer at `rpos` and `nextpos` lies one rune width further, or the input is
exhausted and `r` holds the sentinel. -/
def Inv (lex : Lexer) : Prop :=
  (lex.rpos < lex.buf.length ∧
    lex.r = (lexDecode lex.buf lex.rpos).1 ∧
    lex.nextpos = lex.rpos + (lexDecode lex.buf lex.rpos).2 ∧
    lex.nextpos ≤ lex.buf.length) ∨
  (lex.rpos = lex.buf.length ∧ lex.nextpos = lex.buf.length ∧ lex.r = -1)

instance (lex : Lexer) : Decidable (Inv lex) := by unfold Inv; infer_instance

theorem Inv_bounds {lex : Lexer} (h : Inv lex) :
    lex.rpos ≤ lex.nextpos ∧ lex.nextpos ≤ lex.buf.length := by
  rcases h with ⟨hp, _, hn, hl⟩ | ⟨hp, hn, _⟩
  · have := lexDecode_w_bounds lex.buf lex.rpos hp
    omega
  · omega

theorem Inv_r_nonneg {lex : Lexer} (h : Inv lex) : 0 ≤ lex.r ↔ lex.rpos < lex.buf.length := by
  rcases h with ⟨hp, hr, _, _⟩ | ⟨hp, _, hr⟩
  · rw [hr]
    exact ⟨fun _ => hp, fun _ => lexDecode_r_nonneg _ _ hp⟩
  · omega

theorem Inv_exhausted {lex : Lexer} (h : Inv lex) (hr : lex.r < 0) :
    lex.rpos = lex.buf.length ∧ lex.nextpos = lex.buf.length ∧ lex.r = -1 := by
  rcases h with ⟨hp, hrr, _, _⟩ | he
  · exfalso
    have := lexDecode_r_nonneg lex.buf lex.rpos hp
    omega
  · exact he

theorem next_buf (lex : Lexer) : (next lex).buf = lex.buf := by
  unfold next
  split <;> rfl

theorem Inv_next {lex : Lexer} (h : Inv lex) : Inv (next lex) := by
  unfold next
  split
  · rename_i hlt
    left
    refine ⟨hlt, rfl, rfl, ?_⟩
    have := lexDecode_w_bounds lex.buf lex.nextpos hlt
    simp only []
    omega
  · rename_i hge
    right
    have hb := Inv_bounds h
    refine ⟨rfl, ?_, rfl⟩
    simp only []
    omega

theorem next_rpos_mono {lex : Lexer} (h : Inv lex) : lex.rpos ≤ (next lex).rpos := by
  have hb := Inv_bounds h
  unfold next
  split <;> simp only [] <;> omega

theorem newLexer_eq (buf : List Nat) :
    newLexer buf = if 0 < buf.length
      then { buf := buf, r := (lexDecode buf 0).1, rpos := 0, nextpos := (lexDecode buf 0).2 }
      else { buf := buf, r := -1, rpos := buf.length, nextpos := 0 } := by
  unfold newLexer next
  split <;> simp_all

theorem Inv_newLexer (buf : List Nat) : Inv (newLexer buf) := by
  rw [newLexer_eq]
  rcases Nat.eq_zero_or_pos buf.length with h0 | hpos
  · rw [if_neg (by omega)]
    right
    simp [h0]
  · rw [if_pos hpos]
    left
    have hw := lexDecode_w_bounds buf 0 hpos
    refine ⟨hpos, rfl, ?_, ?_⟩ <;> simp <;> omega

theorem lexMeasure_next_lt {lex : Lexer} (h : 0 ≤ lex.r ∨ lex.nextpos < lex.buf.length) :
    lexMeasure (next lex) < lexMeasure lex := by
  unfold lexMeasure next
  split
  · rename_i hlt
    have hw := lexDecode_w_bounds lex.buf lex.nextpos hlt
    have hr := lexDecode_r_nonneg lex.buf lex.nextpos hlt
    simp only []
    rw [if_pos hr]
    split <;> omega
  · rename_i hge
    have hr : 0 ≤ lex.r := by omega
    simp only []
    rw [if_pos hr, if_neg (by omega)]
    omega

/-! ### Character-class and operator-table lemmas -/

theorem byteAt_drop (buf : List Nat) (n j : Nat) : byteAt (buf.drop n) j = byteAt buf (n + j) := by
  simp [byteAt, List.getD_eq_getElem?_getD, List.getElem?_drop]

theorem isAlpha_iff (r : Int) :
    isAlpha r = true ↔ ((97 ≤ r ∧ r ≤ 122) ∨ (65 ≤ r ∧ r ≤ 90) ∨ r = 95) := by
  simp [isAlpha]
  omega

theorem isDigit_iff (r : Int) : isDigit r = true ↔ (48 ≤ r ∧ r ≤ 57) := by
  simp [isDigit]

theorem identByte_iff (b : Nat) :
    identByte b = true ↔ ((97 ≤ b ∧ b ≤ 122) ∨ (65 ≤ b ∧ b ≤ 90) ∨ b = 95 ∨ (48 ≤ b ∧ b ≤ 57)) := by
  simp [identByte, isAlpha, isDigit]
  omega

theorem ident_false_of_big {r : Int} (h : 122 < r) : (isAlpha r || isDigit r) = false := by
  simp [isAlpha, isDigit]
  omega

theorem ident_nonneg {r : Int} (h : (isAlpha r || isDigit r) = true) : 0 ≤ r := by
  simp [isAlpha, isDigit] at h
  omega

theorem ident_toNat {r : Int} (h : (isAlpha r || isDigit r) = true) : identByte r.toNat = true := by
  have hr0 : 0 ≤ r := ident_nonneg h
  unfold identByte
  rw [Int.toNat_of_nonneg hr0]
  exact h

theorem identRune_lexDecode (buf : List Nat) (pos : Nat) (h : pos < buf.length) :
    (isAlpha (lexDecode buf pos).1 || isDigit (lexDecode buf pos).1)
      = identByte (byteAt buf pos) := by
  rcases lexDecode_spec buf pos h with ⟨_, he⟩ | ⟨hb, _⟩
  · rw [he, identByte]
  · have hfalse : identByte (byteAt buf pos) = false := by
      rw [identByte]
      exact ident_false_of_big (by omega)
    rw [hfalse]
    rcases lexDecode_slow_cases buf pos h hb with hr | hr
    · exact ident_false_of_big (by rw [hr]; norm_num [RuneError])
    · exact ident_false_of_big (by omega)

theorem lexDecode_of_small (buf : List Nat) (pos : Nat) (h : pos < buf.length)
    (hb : byteAt buf pos ≤ 128) : lexDecode buf pos = ((byteAt buf pos : Int), 1) := by
  rcases lexDecode_spec buf pos h with ⟨_, he⟩ | ⟨hb2, _⟩
  · exact he
  · omega

theorem lexDecode_skipped (buf : List Nat) (pos q : Nat) (hpos : pos < buf.length)
    (h1 : pos < q) (h2 : q < pos + (lexDecode buf pos).2) :
    128 ≤ byteAt buf q ∧ byteAt buf q ≤ 191 := by
  rcases lexDecode_spec buf pos hpos with ⟨_, he⟩ | ⟨hb, he⟩
  · rw [he] at h2
    simp at h2
    omega
  · rw [he, drop_byteAt hpos] at h2
    have hc := utf8_cont (byteAt buf pos) (buf.drop (pos + 1)) (q - pos - 1) (by omega)
    rw [byteAt_drop] at hc
    have hq : pos + 1 + (q - pos - 1) = q := by omega
    rw [hq] at hc
    exact hc

theorem opTable_length : opTable.length = 126 := by
  simp [opTable]

theorem opTable_getD (i : Nat) (h : i < 126) :
    opTable.getD i TokenName.ERROR = opCharName i := by
  rw [opTable, List.getD_eq_getElem?_getD, List.getElem?_map, List.getElem?_range h]
  rfl

theorem opCharName_ident_aux : ∀ b, b < 126 → identByte b = true → opCharName b = TokenName.ERROR := by
  decide

theorem opCharName_ident {b : Nat} (h : identByte b = true) : opCharName b = TokenName.ERROR := by
  have hb : b < 126 := by rw [identByte_iff] at h; omega
  exact opCharName_ident_aux b hb h

theorem opCharName_quote : opCharName 34 = TokenName.ERROR := by decide

theorem opCharName_ne_ERROR_imp : ∀ b, b < 126 → opCharName b ≠ TokenName.ERROR →
    opCharName b ≠ TokenName.EOF ∧ opCharName b ≠ TokenName.IDENTIFIER ∧
    opCharName b ≠ TokenName.NUMBER ∧ opCharName b ≠ TokenName.QUOTE := by
  decide

/-- Tokens of operator kind: every member other than the reserved and lexical
category members. -/
def isOpName (t : TokenName) : Bool :=
  match t with
  | TokenName.ERROR | TokenName.EOF | TokenName.COMMENT
  | TokenName.IDENTIFIER | TokenName.NUMBER | TokenName.QUOTE => false
  | _ => true

/-! ### Loop lemmas -/

theorem skipGo_succ (f : Nat) (lex : Lexer) :
    skipGo (f + 1) lex =
      if lex.r = 32 ∨ lex.r = 9 ∨ lex.r = 10 ∨ lex.r = 13 then skipGo f (next lex) else lex := rfl

theorem identGo_succ (f : Nat) (lex : Lexer) :
    identGo (f + 1) lex =
      if isAlpha lex.r || isDigit lex.r then identGo f (next lex) else lex := rfl

theorem numberGo_succ (f : Nat) (lex : Lexer) :
    numberGo (f + 1) lex = if isDigit lex.r then numberGo f (next lex) else lex := rfl

theorem quoteGo_succ (f : Nat) (lex : Lexer) :
    quoteGo (f + 1) lex =
      if lex.r = 34 then some lex
      else if lex.r < 0 ∧ lex.buf.length ≤ lex.nextpos then none
      else quoteGo f (next lex) := rfl

theorem skipGo_basic : ∀ (f : Nat) (lex : Lexer), Inv lex →
    Inv (skipGo f lex) ∧ (skipGo f lex).buf = lex.buf ∧ lex.rpos ≤ (skipGo f lex).rpos := by
  intro f
  induction f with
  | zero => intro lex h; exact ⟨h, rfl, le_refl _⟩
  | succ f ih =>
    intro lex h
    rw [skipGo_succ]
    split
    · have h2 := ih (next lex) (Inv_next h)
      exact ⟨h2.1, by rw [h2.2.1, next_buf], le_trans (next_rpos_mono h) h2.2.2⟩
    · exact ⟨h, rfl, le_refl _⟩

theorem identGo_basic : ∀ (f : Nat) (lex : Lexer), Inv lex →
    Inv (identGo f lex) ∧ (identGo f lex).buf = lex.buf ∧ lex.rpos ≤ (identGo f lex).rpos := by
  intro f
  induction f with
  | zero => intro lex h; exact ⟨h, rfl, le_refl _⟩
  | succ f ih =>
    intro lex h
    rw [identGo_succ]
    split
    · have h2 := ih (next lex) (Inv_next h)
      exact ⟨h2.1, by rw [h2.2.1, next_buf], le_trans (next_rpos_mono h) h2.2.2⟩
    · exact ⟨h, rfl, le_refl _⟩

theorem numberGo_basic : ∀ (f : Nat) (lex : Lexer), Inv lex →
    Inv (numberGo f lex) ∧ (numberGo f lex).buf = lex.buf ∧ lex.rpos ≤ (numberGo f lex).rpos := by
  intro f
  induction f with
  | zero => intro lex h; exact ⟨h, rfl, le_refl _⟩
  | succ f ih =>
    intro lex h
    rw [numberGo_succ]
    split
    · have h2 := ih (next lex) (Inv_next h)
      exact ⟨h2.1, by rw [h2.2.1, next_buf], le_trans (next_rpos_mono h) h2.2.2⟩
    · exact ⟨h, rfl, le_refl _⟩

theorem quoteGo_basic : ∀ (f : Nat) (lex lex2 : Lexer), Inv lex → quoteGo f lex = some lex2 →
    Inv lex2 ∧ lex2.buf = lex.buf ∧ lex.rpos ≤ lex2.rpos ∧ lex2.r = 34 := by
  intro f
  induction f with
  | zero =>
    intro lex lex2 _ h
    exact absurd h (by simp [quoteGo])
  | succ f ih =>
    intro lex lex2 hInv h
    rw [quoteGo_succ] at h
    split at h
    · rename_i h34
      cases h
      exact ⟨hInv, rfl, le_refl _, h34⟩
    · split at h
      · exact absurd h (by simp)
      · have h2 := ih (next lex) lex2 (Inv_next hInv) h
        exact ⟨h2.1, by rw [h2.2.1, next_buf],
          le_trans (next_rpos_mono hInv) h2.2.2.1, h2.2.2.2⟩

theorem skipNontokens_basic (lex : Lexer) (h : Inv lex) :
    Inv (skipNontokens lex) ∧ (skipNontokens lex).buf = lex.buf ∧
      lex.rpos ≤ (skipNontokens lex).rpos :=
  skipGo_basic _ lex h

theorem skipGo_neg (f : Nat) (lex : Lexer) (h : lex.r < 0) : skipGo f lex = lex := by
  cases f with
  | zero => rfl
  | succ f =>
    rw [skipGo_succ, if_neg (by omega)]

theorem skipNontokens_neg (lex : Lexer) (h : lex.r < 0) : skipNontokens lex = lex :=
  skipGo_neg _ _ h

theorem next_rpos_eq {lex : Lexer} (h : Inv lex) : (next lex).rpos = lex.nextpos := by
  have hb := Inv_bounds h
  unfold next
  split <;> simp <;> omega

/-! ### Branch dispatch lemmas for nextToken -/

theorem Inv_r_eq {lex : Lexer} (h : Inv lex) (hlt : lex.rpos < lex.buf.length) :
    lex.r = (lexDecode lex.buf lex.rpos).1 ∧
    lex.nextpos = lex.rpos + (lexDecode lex.buf lex.rpos).2 := by
  rcases h with ⟨_, hr, hn, _⟩ | ⟨hp, _, _⟩
  · exact ⟨hr, hn⟩
  · omega

theorem nextToken_eof {lex0 : Lexer} (h : (skipNontokens lex0).r < 0) :
    nextToken lex0 = some ({ name := TokenName.EOF, val := [],
                             pos := (skipNontokens lex0).nextpos }, skipNontokens lex0) := by
  simp only [nextToken]
  rw [if_pos h]

theorem nextToken_op {lex0 : Lexer}
    (h0 : ¬ (skipNontokens lex0).r < 0)
    (hg : (skipNontokens lex0).r.toNat < opTable.length ∧
      opTable.getD (skipNontokens lex0).r.toNat TokenName.ERROR ≠ TokenName.ERROR) :
    nextToken lex0 = some
      ({ name := opTable.getD (skipNontokens lex0).r.toNat TokenName.ERROR,
         val := extract (next (skipNontokens lex0)).buf (skipNontokens lex0).rpos
           (next (skipNontokens lex0)).rpos,
         pos := (skipNontokens lex0).rpos }, next (skipNontokens lex0)) := by
  simp only [nextToken]
  rw [if_neg h0, if_pos hg]

theorem nextToken_alpha {lex0 : Lexer} (h : isAlpha (skipNontokens lex0).r = true) :
    nextToken lex0 = some (scanIdentifier (skipNontokens lex0)) := by
  have h0 : ¬ (skipNontokens lex0).r < 0 := by
    have := ident_nonneg (show (isAlpha (skipNontokens lex0).r || isDigit (skipNontokens lex0).r)
        = true by simp [h])
    omega
  have hng : ¬ ((skipNontokens lex0).r.toNat < opTable.length ∧
      opTable.getD (skipNontokens lex0).r.toNat TokenName.ERROR ≠ TokenName.ERROR) := by
    rintro ⟨h1, h2⟩
    rw [opTable_length] at h1
    rw [opTable_getD _ h1] at h2
    exact h2 (opCharName_ident (ident_toNat (by simp [h])))
  simp only [nextToken]
  rw [if_neg h0, if_neg hng, if_pos h]

theorem nextToken_digit {lex0 : Lexer} (ha : ¬ isAlpha (skipNontokens lex0).r = true)
    (hd : isDigit (skipNontokens lex0).r = true) :
    nextToken lex0 = some (scanNumber (skipNontokens lex0)) := by
  have h0 : ¬ (skipNontokens lex0).r < 0 := by
    have := ident_nonneg (show (isAlpha (skipNontokens lex0).r || isDigit (skipNontokens lex0).r)
        = true by simp [hd])
    omega
  have hng : ¬ ((skipNontokens lex0).r.toNat < opTable.length ∧
      opTable.getD (skipNontokens lex0).r.toNat TokenName.ERROR ≠ TokenName.ERROR) := by
    rintro ⟨h1, h2⟩
    rw [opTable_length] at h1
    rw [opTable_getD _ h1] at h2
    exact h2 (opCharName_ident (ident_toNat (by simp [hd])))
  simp only [nextToken]
  rw [if_neg h0, if_neg hng, if_neg ha, if_pos hd]

theorem nextToken_quote34 {lex0 : Lexer} (h : (skipNontokens lex0).r = 34) :
    nextToken lex0 = scanQuote (skipNontokens lex0) := by
  have h0 : ¬ (skipNontokens lex0).r < 0 := by omega
  have h34 : (skipNontokens lex0).r.toNat = 34 := by rw [h]; rfl
  have hng : ¬ ((skipNontokens lex0).r.toNat < opTable.length ∧
      opTable.getD (skipNontokens lex0).r.toNat TokenName.ERROR ≠ TokenName.ERROR) := by
    rintro ⟨h1, h2⟩
    rw [h34, opTable_getD 34 (by omega)] at h2
    exact h2 opCharName_quote
  simp only [nextToken]
  rw [if_neg h0, if_neg hng, if_neg (by rw [h]; decide), if_neg (by rw [h]; decide), if_pos h]

theorem nextToken_error_case {lex0 : Lexer}
    (h0 : ¬ (skipNontokens lex0).r < 0)
    (hng : ¬ ((skipNontokens lex0).r.toNat < opTable.length ∧
      opTable.getD (skipNontokens lex0).r.toNat TokenName.ERROR ≠ TokenName.ERROR))
    (ha : ¬ isAlpha (skipNontokens lex0).r = true)
    (hd : ¬ isDigit (skipNontokens lex0).r = true)
    (hq : ¬ (skipNontokens lex0).r = 34) :
    nextToken lex0 = some (makeErrorToken (skipNontokens lex0).rpos, skipNontokens lex0) := by
  simp only [nextToken]
  rw [if_neg h0, if_neg hng, if_neg ha, if_neg hd, if_neg hq]

/-! ### Specifications of the scan helpers -/

theorem scanIdentifier_parts (lex : Lexer) (hInv : Inv lex) :
    (scanIdentifier lex).1 = { name := TokenName.IDENTIFIER,
                               val := extract lex.buf lex.rpos (scanIdentifier lex).2.rpos,
                               pos := lex.rpos } ∧
    Inv (scanIdentifier lex).2 ∧ (scanIdentifier lex).2.buf = lex.buf ∧
    lex.rpos ≤ (scanIdentifier lex).2.rpos := by
  have hb := identGo_basic (lexMeasure lex + 1) lex hInv
  exact ⟨rfl, hb.1, hb.2.1, hb.2.2⟩

theorem scanNumber_parts (lex : Lexer) (hInv : Inv lex) :
    (scanNumber lex).1 = { name := TokenName.NUMBER,
                           val := extract lex.buf lex.rpos (scanNumber lex).2.rpos,
                           pos := lex.rpos } ∧
    Inv (scanNumber lex).2 ∧ (scanNumber lex).2.buf = lex.buf ∧
    lex.rpos ≤ (scanNumber lex).2.rpos := by
  have hb := numberGo_basic (lexMeasure lex + 1) lex hInv
  exact ⟨rfl, hb.1, hb.2.1, hb.2.2⟩

theorem scanQuote_eq_none {lex : Lexer}
    (hq : quoteGo (lexMeasure (next lex) + 1) (next lex) = none) :
    scanQuote lex = none := by
  unfold scanQuote
  rw [hq]

theorem scanQuote_eq_some {lex lex2 : Lexer}
    (hq : quoteGo (lexMeasure (next lex) + 1) (next lex) = some lex2) :
    scanQuote lex =
      if lex2.r < 0 then some (makeErrorToken lex.rpos, lex2)
      else some ({ name := TokenName.QUOTE,
                   val := extract lex.buf lex.rpos (next lex2).rpos,
                   pos := lex.rpos }, next lex2) := by
  unfold scanQuote
  rw [hq]

theorem scanQuote_some {lex : Lexer} (hInv : Inv lex) (t : Token) (lex' : Lexer)
    (h : scanQuote lex = some (t, lex')) :
    Inv lex' ∧ lex'.buf = lex.buf ∧ lex.rpos ≤ lex'.rpos ∧
    t = { name := TokenName.QUOTE, val := extract lex.buf lex.rpos lex'.rpos,
          pos := lex.rpos } := by
  cases hq : quoteGo (lexMeasure (next lex) + 1) (next lex) with
  | none =>
    rw [scanQuote_eq_none hq] at h
    cases h
  | some lex2 =>
    have hb := quoteGo_basic _ _ _ (Inv_next hInv) hq
    rw [scanQuote_eq_some hq, if_neg (by omega)] at h
    simp only [Option.some.injEq, Prod.mk.injEq] at h
    obtain ⟨ht, hl⟩ := h
    subst hl
    subst ht
    refine ⟨Inv_next hb.1, ?_, ?_, rfl⟩
    · rw [next_buf, hb.2.1, next_buf]
    · have h1 := next_rpos_mono hInv
      have h2 := next_rpos_mono hb.1
      have h3 := hb.2.2.1
      omega

/-! ### The single-step specification -/

theorem consume_facts {lex0 : Lexer} (hInv : Inv lex0) {lex' : Lexer}
    (hInv' : Inv lex') (hbuf : lex'.buf = lex0.buf)
    (hmono : (skipNontokens lex0).rpos ≤ lex'.rpos) :
    lex0.rpos ≤ lex'.rpos ∧
    (skipNontokens lex0).rpos +
      (extract lex0.buf (skipNontokens lex0).rpos lex'.rpos).length ≤ lex'.rpos ∧
    extract lex0.buf lex0.rpos (skipNontokens lex0).rpos ++
      extract lex0.buf (skipNontokens lex0).rpos lex'.rpos
      = extract lex0.buf lex0.rpos lex'.rpos := by
  obtain ⟨hsI, hsb, hsr⟩ := skipNontokens_basic lex0 hInv
  have h1 : lex'.rpos ≤ lex0.buf.length := by
    have := Inv_bounds hInv'
    rw [hbuf] at this
    omega
  refine ⟨le_trans hsr hmono, ?_, extract_append hsr hmono⟩
  rw [extract_length hmono h1]
  omega

theorem step_pack {lex0 : Lexer} (hInv : Inv lex0) {t : Token} {lex' : Lexer}
    (hInv' : Inv lex') (hbuf' : lex'.buf = lex0.buf)
    (hmono' : (skipNontokens lex0).rpos ≤ lex'.rpos)
    (hval : t.val = extract lex0.buf (skipNontokens lex0).rpos lex'.rpos)
    (hpos : t.pos = (skipNontokens lex0).rpos)
    (hname : t.name ≠ TokenName.EOF) :
    Inv lex' ∧ lex'.buf = lex0.buf ∧ lex0.rpos ≤ lex'.rpos ∧
    lex0.rpos ≤ t.pos ∧ t.pos + t.val.length ≤ lex'.rpos ∧
    extract lex0.buf lex0.rpos (skipNontokens lex0).rpos ++ t.val
      = extract lex0.buf lex0.rpos lex'.rpos ∧
    (t.name = TokenName.EOF → lex'.rpos = lex0.buf.length ∧ nextToken lex' = some (t, lex')) := by
  obtain ⟨hsI, hsb, hsr⟩ := skipNontokens_basic lex0 hInv
  obtain ⟨c1, c2, c3⟩ := consume_facts hInv hInv' hbuf' hmono'
  rw [hval, hpos]
  exact ⟨hInv', hbuf', c1, hsr, c2, c3, fun habs => absurd habs hname⟩

theorem nextToken_step {lex0 : Lexer} (hInv : Inv lex0) (t : Token) (lex' : Lexer)
    (h : nextToken lex0 = some (t, lex')) :
    Inv lex' ∧ lex'.buf = lex0.buf ∧ lex0.rpos ≤ lex'.rpos ∧
    lex0.rpos ≤ t.pos ∧ t.pos + t.val.length ≤ lex'.rpos ∧
    extract lex0.buf lex0.rpos (skipNontokens lex0).rpos ++ t.val
      = extract lex0.buf lex0.rpos lex'.rpos ∧
    (t.name = TokenName.EOF → lex'.rpos = lex0.buf.length ∧ nextToken lex' = some (t, lex')) := by
  obtain ⟨hsI, hsb, hsr⟩ := skipNontokens_basic lex0 hInv
  by_cases hneg : (skipNontokens lex0).r < 0
  · rw [nextToken_eof hneg] at h
    simp only [Option.some.injEq, Prod.mk.injEq] at h
    obtain ⟨ht, hl⟩ := h
    subst hl
    subst ht
    obtain ⟨hrl, hnl, hrm1⟩ := Inv_exhausted hsI hneg
    rw [hsb] at hrl hnl
    refine ⟨hsI, hsb, hsr, ?_, ?_, ?_, ?_⟩
    · simp only []
      omega
    · simp only [List.length_nil]
      omega
    · rw [List.append_nil]
    · intro _
      refine ⟨by omega, ?_⟩
      have hskip : skipNontokens (skipNontokens lex0) = skipNontokens lex0 :=
        skipNontokens_neg _ hneg
      rw [nextToken_eof (by rw [hskip]; exact hneg), hskip]
  · by_cases hg : ((skipNontokens lex0).r.toNat < opTable.length ∧
        opTable.getD (skipNontokens lex0).r.toNat TokenName.ERROR ≠ TokenName.ERROR)
    · rw [nextToken_op hneg hg] at h
      simp only [Option.some.injEq, Prod.mk.injEq] at h
      obtain ⟨ht, hl⟩ := h
      have h126 : (skipNontokens lex0).r.toNat < 126 := by
        have := hg.1
        rw [opTable_length] at this
        exact this
      refine step_pack hInv ?_ ?_ ?_ ?_ ?_ ?_
      · rw [← hl]; exact Inv_next hsI
      · rw [← hl, next_buf, hsb]
      · rw [← hl]; exact next_rpos_mono hsI
      · rw [← ht, ← hl]
        simp only []
        rw [next_buf, hsb]
      · rw [← ht]
      · rw [← ht]
        simp only []
        intro habs
        have hname := hg.2
        rw [opTable_getD _ h126] at hname habs
        exact (opCharName_ne_ERROR_imp _ h126 hname).1 habs
    · by_cases ha : isAlpha (skipNontokens lex0).r = true
      · rw [nextToken_alpha ha] at h
        simp only [Option.some.injEq] at h
        have ht : (scanIdentifier (skipNontokens lex0)).1 = t := by rw [h]
        have hl : (scanIdentifier (skipNontokens lex0)).2 = lex' := by rw [h]
        obtain ⟨hfst, hInv', hbuf', hmono'⟩ := scanIdentifier_parts (skipNontokens lex0) hsI
        rw [hl] at hfst hInv' hbuf' hmono'
        rw [hfst] at ht
        refine step_pack hInv hInv' (by rw [hbuf', hsb]) hmono' ?_ ?_ ?_
        · rw [← ht]
          simp only []
          rw [hsb]
        · rw [← ht]
        · rw [← ht]
          simp only []
          decide
      · by_cases hd : isDigit (skipNontokens lex0).r = true
        · rw [nextToken_digit ha hd] at h
          simp only [Option.some.injEq] at h
          have ht : (scanNumber (skipNontokens lex0)).1 = t := by rw [h]
          have hl : (scanNumber (skipNontokens lex0)).2 = lex' := by rw [h]
          obtain ⟨hfst, hInv', hbuf', hmono'⟩ := scanNumber_parts (skipNontokens lex0) hsI
          rw [hl] at hfst hInv' hbuf' hmono'
          rw [hfst] at ht
          refine step_pack hInv hInv' (by rw [hbuf', hsb]) hmono' ?_ ?_ ?_
          · rw [← ht]
            simp only []
            rw [hsb]
          · rw [← ht]
          · rw [← ht]
            simp only []
            decide
        · by_cases hq : (skipNontokens lex0).r = 34
          · rw [nextToken_quote34 hq] at h
            obtain ⟨hInv', hbuf', hmono', ht⟩ := scanQuote_some hsI t lex' h
            refine step_pack hInv hInv' (by rw [hbuf', hsb]) hmono' ?_ ?_ ?_
            · rw [ht]
              simp only []
              rw [hsb]
            · rw [ht]
            · rw [ht]
              simp only []
              decide
          · rw [nextToken_error_case hneg hg ha hd hq] at h
            simp only [Option.some.injEq, Prod.mk.injEq] at h
            obtain ⟨ht, hl⟩ := h
            subst hl
            refine step_pack hInv hsI hsb (le_refl _) ?_ ?_ ?_
            · rw [← ht]
              simp only [makeErrorToken, extract]
              simp
            · rw [← ht]
              rfl
            · rw [← ht]
              simp only [makeErrorToken]
              decide

/-! ### Content characterization of identifier scanning -/

theorem identGo_run : ∀ (f : Nat) (lex : Lexer), Inv lex → lexMeasure lex < f →
    (identGo f lex).rpos = lex.rpos + ((lex.buf.drop lex.rpos).takeWhile identByte).length := by
  intro f
  induction f with
  | zero => intro lex _ h; omega
  | succ f ih =>
    intro lex hInv hm
    rw [identGo_succ]
    by_cases hg : (isAlpha lex.r || isDigit lex.r) = true
    · rw [if_pos hg]
      have hr0 : 0 ≤ lex.r := ident_nonneg hg
      have hlt : lex.rpos < lex.buf.length := (Inv_r_nonneg hInv).mp hr0
      obtain ⟨hre, hne⟩ := Inv_r_eq hInv hlt
      have hib : identByte (byteAt lex.buf lex.rpos) = true := by
        rw [← identRune_lexDecode lex.buf lex.rpos hlt, ← hre]
        exact hg
      have hble : byteAt lex.buf lex.rpos ≤ 128 := by
        rw [identByte_iff] at hib
        omega
      have hdec := lexDecode_of_small lex.buf lex.rpos hlt hble
      have hw1 : (lexDecode lex.buf lex.rpos).2 = 1 := by rw [hdec]
      have hnext_rpos : (next lex).rpos = lex.rpos + 1 := by
        rw [next_rpos_eq hInv]
        omega
      have ihx := ih (next lex) (Inv_next hInv)
        (by have := @lexMeasure_next_lt lex (Or.inl hr0); omega)
      rw [ihx, next_buf, hnext_rpos]
      rw [drop_byteAt hlt, List.takeWhile_cons, if_pos hib]
      simp only [List.length_cons]
      omega
    · rw [if_neg hg]
      have hgf : (isAlpha lex.r || isDigit lex.r) = false := by
        revert hg
        cases isAlpha lex.r || isDigit lex.r <;> simp
      rcases Nat.lt_or_ge lex.rpos lex.buf.length with hlt | hge
      · have hib : identByte (byteAt lex.buf lex.rpos) = false := by
          rw [← identRune_lexDecode lex.buf lex.rpos hlt, ← (Inv_r_eq hInv hlt).1]
          exact hgf
        rw [drop_byteAt hlt, List.takeWhile_cons, if_neg (by simp [hib])]
        simp
      · rw [List.drop_eq_nil_of_le hge]
        simp

theorem scanIdentifier_val (lex : Lexer) (hInv : Inv lex) :
    (scanIdentifier lex).1 = { name := TokenName.IDENTIFIER,
                               val := (lex.buf.drop lex.rpos).takeWhile identByte,
                               pos := lex.rpos } := by
  have hrun := identGo_run (lexMeasure lex + 1) lex hInv (by omega)
  show ({ name := TokenName.IDENTIFIER,
          val := extract lex.buf lex.rpos (identGo (lexMeasure lex + 1) lex).rpos,
          pos := lex.rpos } : Token) = _
  rw [hrun, extract]
  have h1 : lex.rpos + ((lex.buf.drop lex.rpos).takeWhile identByte).length - lex.rpos
      = ((lex.buf.drop lex.rpos).takeWhile identByte).length := by omega
  rw [h1, take_takeWhile]

/-! ### Content characterization of quote scanning -/

theorem quoteGo_finds : ∀ (f : Nat) (lex : Lexer) (p : Nat), Inv lex → lexMeasure lex < f →
    lex.rpos ≤ p → p < lex.buf.length → byteAt lex.buf p = 34 →
    (∀ q, lex.rpos ≤ q → q < p → byteAt lex.buf q ≠ 34) →
    ∃ lex2, quoteGo f lex = some lex2 ∧ lex2.buf = lex.buf ∧ lex2.r = 34 ∧
      lex2.rpos = p ∧ lex2.nextpos = p + 1 := by
  intro f
  induction f with
  | zero => intro lex p _ h; omega
  | succ f ih =>
    intro lex p hInv hm hle hplen hp34 hfirst
    have hlt : lex.rpos < lex.buf.length := by omega
    obtain ⟨hre, hne⟩ := Inv_r_eq hInv hlt
    rcases Nat.eq_or_lt_of_le hle with heq | hlt2
    · have hb : byteAt lex.buf lex.rpos = 34 := by rw [heq]; exact hp34
      have hdec := lexDecode_of_small lex.buf lex.rpos hlt (by omega)
      have hr34 : lex.r = 34 := by
        rw [hre, hdec, hb]
        rfl
      refine ⟨lex, ?_, rfl, hr34, heq, ?_⟩
      · rw [quoteGo_succ, if_pos hr34]
      · rw [hne, hdec]
        omega
    · have hbne : byteAt lex.buf lex.rpos ≠ 34 := hfirst lex.rpos (le_refl _) hlt2
      have hrne : ¬ lex.r = 34 := by
        rw [hre, lexDecode_r_34 lex.buf lex.rpos hlt]
        exact hbne
      have hr0 : 0 ≤ lex.r := by
        rw [hre]
        exact lexDecode_r_nonneg _ _ hlt
      rw [quoteGo_succ, if_neg hrne, if_neg (by omega)]
      have hnewle : (next lex).rpos ≤ p := by
        rw [next_rpos_eq hInv]
        by_contra hcon
        push_neg at hcon
        have hskip := lexDecode_skipped lex.buf lex.rpos p hlt hlt2 (by omega)
        omega
      obtain ⟨lex2, hsome, hbuf2, hr2, hrp2, hnp2⟩ := ih (next lex) p (Inv_next hInv)
        (by have := @lexMeasure_next_lt lex (Or.inl hr0); omega)
        hnewle (by rw [next_buf]; exact hplen) (by rw [next_buf]; exact hp34)
        (fun q hq1 hq2 => by
          rw [next_buf]
          exact hfirst q (le_trans (next_rpos_mono hInv) hq1) hq2)
      exact ⟨lex2, hsome, by rw [hbuf2, next_buf], hr2, hrp2, hnp2⟩

theorem scanQuote_finds (lex : Lexer) (p : Nat) (hInv : Inv lex) (hr : lex.r = 34)
    (hp1 : lex.rpos + 1 ≤ p) (hplen : p < lex.buf.length) (hp34 : byteAt lex.buf p = 34)
    (hfirst : ∀ q, lex.rpos + 1 ≤ q → q < p → byteAt lex.buf q ≠ 34) :
    (scanQuote lex).map Prod.fst = some { name := TokenName.QUOTE,
                                          val := extract lex.buf lex.rpos (p + 1),
                                          pos := lex.rpos } := by
  have hlt : lex.rpos < lex.buf.length := by omega
  obtain ⟨hre, hne⟩ := Inv_r_eq hInv hlt
  have hb34 : byteAt lex.buf lex.rpos = 34 := by
    rw [← lexDecode_r_34 lex.buf lex.rpos hlt, ← hre]
    exact hr
  have hdec := lexDecode_of_small lex.buf lex.rpos hlt (by omega)
  have hnp : lex.nextpos = lex.rpos + 1 := by
    rw [hne, hdec]
  have hnrpos : (next lex).rpos = lex.rpos + 1 := by
    rw [next_rpos_eq hInv, hnp]
  obtain ⟨lex2, hsome, hbuf2, hr2, hrp2, hnp2⟩ :=
    quoteGo_finds (lexMeasure (next lex) + 1) (next lex) p (Inv_next hInv) (by omega)
      (by omega) (by rw [next_buf]; exact hplen) (by rw [next_buf]; exact hp34)
      (fun q hq1 hq2 => by
        rw [next_buf]
        exact hfirst q (by omega) hq2)
  have hInv2 : Inv lex2 := (quoteGo_basic _ _ _ (Inv_next hInv) hsome).1
  rw [scanQuote_eq_some hsome, if_neg (by omega)]
  have hnr2 : (next lex2).rpos = p + 1 := by
    rw [next_rpos_eq hInv2, hnp2]
  simp only [Option.map_some']
  rw [hnr2]

/-! ### Token-name analysis of a returned EOF -/

theorem nextToken_eof_name {lex0 : Lexer} (t : Token) (lex' : Lexer)
    (h : nextToken lex0 = some (t, lex')) (hname : t.name = TokenName.EOF) :
    (skipNontokens lex0).r < 0 ∧ lex' = skipNontokens lex0 ∧
    t = { name := TokenName.EOF, val := [], pos := (skipNontokens lex0).nextpos } := by
  by_cases hneg : (skipNontokens lex0).r < 0
  · rw [nextToken_eof hneg] at h
    simp only [Option.some.injEq, Prod.mk.injEq] at h
    exact ⟨hneg, h.2.symm, h.1.symm⟩
  · exfalso
    by_cases hg : ((skipNontokens lex0).r.toNat < opTable.length ∧
        opTable.getD (skipNontokens lex0).r.toNat TokenName.ERROR ≠ TokenName.ERROR)
    · rw [nextToken_op hneg hg] at h
      simp only [Option.some.injEq, Prod.mk.injEq] at h
      have ht := h.1
      have h126 : (skipNontokens lex0).r.toNat < 126 := by
        have := hg.1
        rw [opTable_length] at this
        exact this
      have hname2 := hg.2
      rw [opTable_getD _ h126] at hname2
      have := (opCharName_ne_ERROR_imp _ h126 hname2).1
      rw [← ht] at hname
      simp only [] at hname
      rw [opTable_getD _ h126] at hname
      exact this hname
    · by_cases ha : isAlpha (skipNontokens lex0).r = true
      · rw [nextToken_alpha ha] at h
        simp only [Option.some.injEq] at h
        have h1 : (scanIdentifier (skipNontokens lex0)).1 = t := by rw [h]
        have : t.name = TokenName.IDENTIFIER := by rw [← h1]; rfl
        rw [hname] at this
        cases this
      · by_cases hd : isDigit (skipNontokens lex0).r = true
        · rw [nextToken_digit ha hd] at h
          simp only [Option.some.injEq] at h
          have h1 : (scanNumber (skipNontokens lex0)).1 = t := by rw [h]
          have : t.name = TokenName.NUMBER := by rw [← h1]; rfl
          rw [hname] at this
          cases this
        · by_cases hq : (skipNontokens lex0).r = 34
          · rw [nextToken_quote34 hq] at h
            cases hqg : quoteGo (lexMeasure (next (skipNontokens lex0)) + 1)
                (next (skipNontokens lex0)) with
            | none =>
              rw [scanQuote_eq_none hqg] at h
              cases h
            | some lex2 =>
              rw [scanQuote_eq_some hqg] at h
              by_cases hneg2 : lex2.r < 0
              · rw [if_pos hneg2] at h
                simp only [Option.some.injEq, Prod.mk.injEq] at h
                have := h.1
                rw [← this] at hname
                cases hname
              · rw [if_neg hneg2] at h
                simp only [Option.some.injEq, Prod.mk.injEq] at h
                have := h.1
                rw [← this] at hname
                cases hname
          · rw [nextToken_error_case hneg hg ha hd hq] at h
            simp only [Option.some.injEq, Prod.mk.injEq] at h
            have := h.1
            rw [← this] at hname
            cases hname

/-! ### Driver invariants -/

theorem callN_eof_fixpoint (lex' : Lexer) (t : Token)
    (hfix : nextToken lex' = some (t, lex')) :
    ∀ n, callN n lex' = (List.replicate n t, lex') := by
  intro n
  induction n with
  | zero => rfl
  | succ n ih =>
    simp [callN, hfix, ih, List.replicate_succ]

theorem callN_chain : ∀ (n : Nat) (lex : Lexer), Inv lex →
    List.Chain' (fun t1 t2 => t1.pos + t1.val.length ≤ t2.pos) (callN n lex).1 ∧
    (∀ t0, ((callN n lex).1).head? = some t0 → lex.rpos ≤ t0.pos) := by
  intro n
  induction n with
  | zero =>
    intro lex _
    exact ⟨List.chain'_nil, by intro t0 h; simp [callN] at h⟩
  | succ n ih =>
    intro lex hInv
    cases hnt : nextToken lex with
    | none =>
      constructor
      · simp [callN, hnt]
      · intro t0 h
        simp [callN, hnt] at h
    | some tl =>
      obtain ⟨t, lex2⟩ := tl
      have hstep := nextToken_step hInv t lex2 hnt
      have ihx := ih lex2 hstep.1
      have hlist : (callN (n + 1) lex).1 = t :: (callN n lex2).1 := by
        simp [callN, hnt]
      constructor
      · rw [hlist, List.chain'_cons']
        refine ⟨?_, ihx.1⟩
        intro y hy
        simp only [Option.mem_def] at hy
        have h1 := ihx.2 y hy
        have h2 := hstep.2.2.2.2.1
        have h3 := hstep.2.2.1
        omega
      · intro t0 h
        rw [hlist] at h
        simp only [List.head?_cons, Option.some.injEq] at h
        rw [← h]
        exact hstep.2.2.2.1

theorem scanConcat_reconstructs : ∀ (n : Nat) (lex : Lexer), Inv lex →
    (scanConcat n lex).2 = true →
    (scanConcat n lex).1 = extract lex.buf lex.rpos lex.buf.length := by
  intro n
  induction n with
  | zero =>
    intro lex _ h
    simp [scanConcat] at h
  | succ n ih =>
    intro lex hInv hdone
    cases hnt : nextToken lex with
    | none =>
      simp [scanConcat, hnt] at hdone
    | some tl =>
      obtain ⟨t, lex2⟩ := tl
      have hstep := nextToken_step hInv t lex2 hnt
      have hpiece := hstep.2.2.2.2.2.1
      by_cases heof : t.name = TokenName.EOF
      · have heq : scanConcat (n + 1) lex =
            (extract lex.buf lex.rpos (skipNontokens lex).rpos ++ t.val, true) := by
          simp [scanConcat, hnt, heof]
        rw [heq]
        simp only []
        rw [hpiece, (hstep.2.2.2.2.2.2 heof).1]
      · have heq1 : (scanConcat (n + 1) lex).1 =
            extract lex.buf lex.rpos (skipNontokens lex).rpos ++ t.val ++
              (scanConcat n lex2).1 := by
          simp [scanConcat, hnt, heof]
        have hdone2 : (scanConcat n lex2).2 = true := by
          have heq2 : (scanConcat (n + 1) lex).2 = (scanConcat n lex2).2 := by
            simp [scanConcat, hnt, heof]
          rw [← heq2]
          exact hdone
        have ihx := ih lex2 hstep.1 hdone2
        rw [heq1, hpiece, ihx, hstep.2.1]
        refine extract_append hstep.2.2.1 ?_
        have := Inv_bounds hstep.1
        rw [hstep.2.1] at this
        omega

/-! ### Further helpers for the claim theorems -/

theorem skipNontokens_id {lex : Lexer}
    (h : ¬(lex.r = 32 ∨ lex.r = 9 ∨ lex.r = 10 ∨ lex.r = 13)) :
    skipNontokens lex = lex := by
  rw [skipNontokens, skipGo_succ, if_neg h]

theorem byteAt_cons_succ (a : Nat) (l : List Nat) (k : Nat) :
    byteAt (a :: l) (k + 1) = byteAt l k := rfl

theorem byteAt_append_last (mid : List Nat) (x : Nat) :
    byteAt (mid ++ [x]) mid.length = x := by
  simp [byteAt, List.getD_eq_getElem?_getD, List.getElem?_append_right (le_refl mid.length)]

theorem byteAt_append_left (mid l : List Nat) (k : Nat) (h : k < mid.length) :
    byteAt (mid ++ l) k = byteAt mid k := by
  rw [byteAt, byteAt, List.getD_eq_getElem?_getD, List.getD_eq_getElem?_getD,
    List.getElem?_append, if_pos h]

theorem byteAt_mem (l : List Nat) (i : Nat) (h : i < l.length) : byteAt l i ∈ l := by
  rw [byteAt, List.getD_eq_getElem l 0 h]
  exact List.getElem_mem h

/-! ### Claim theorems -/

/-- Claim C1 (code bug): on the unterminated quoted string `"oops` the Go
scanner never returns the `{Error, "", 0}` token the spec demands — the loop
`for lex.r != '"'` has no end-of-input test, so on exhausted input the call
spins forever (`none` in this embedding). -/
theorem C1_unterminated_quote_diverges :
    nextToken (newLexer [34, 111, 111, 112, 115]) = none := by
  decide

/-- Claim C2 (code bug): a `NextToken` call is not always terminating: on the
buffer holding a single double quote the quote-scanning loop never exits
(`none` in this embedding), so no bound by the remaining buffer length holds. -/
theorem C2_call_diverges : nextToken (newLexer [34]) = none := by
  decide

/-- Claim C3 (code bug): the fast single-byte path is taken for byte `0x80`
(the source tests `r > utf8.RuneSelf` instead of `≥`), which is not ASCII:
the primed rune is 128 where the general decoder yields the replacement
character `RuneError`, so the fast path disagrees with the decoder there and
the malformed byte `0x80` does not surface as a decode failure. -/
theorem C3_fast_path_byte128 :
    (newLexer [128]).r = 128 ∧ (newLexer [128]).nextpos = 1 ∧
    utf8DecodeRune [128] = (RuneError, 1) ∧ (128 : Int) ≠ RuneError := by
  refine ⟨by decide, by decide, by decide, by decide⟩

/-- Claim C4: an operator token is returned only when the current rune after
whitespace skipping is nonnegative (the end-of-input sentinel is excluded
earlier) and its code indexes within the 126-entry operator table, hence is
below 128 — so the array index is in bounds and a non-ASCII character never
produces an operator token. -/
theorem C4_op_lookup_bounded (lex0 : Lexer) (t : Token) (lex' : Lexer)
    (h : nextToken lex0 = some (t, lex')) (hop : isOpName t.name = true) :
    0 ≤ (skipNontokens lex0).r ∧ ((skipNontokens lex0).r).toNat < opTable.length ∧
    (skipNontokens lex0).r < 128 := by
  by_cases hneg : (skipNontokens lex0).r < 0
  · rw [nextToken_eof hneg] at h
    simp only [Option.some.injEq, Prod.mk.injEq] at h
    rw [← h.1] at hop
    simp [isOpName] at hop
  · by_cases hg : ((skipNontokens lex0).r.toNat < opTable.length ∧
        opTable.getD (skipNontokens lex0).r.toNat TokenName.ERROR ≠ TokenName.ERROR)
    · refine ⟨by omega, hg.1, ?_⟩
      have h126 : (skipNontokens lex0).r.toNat < 126 := by
        have := hg.1
        rw [opTable_length] at this
        exact this
      have h0 : 0 ≤ (skipNontokens lex0).r := by omega
      have := (Int.toNat_lt h0).mp h126
      omega
    · by_cases ha : isAlpha (skipNontokens lex0).r = true
      · rw [nextToken_alpha ha] at h
        simp only [Option.some.injEq] at h
        have h1 : (scanIdentifier (skipNontokens lex0)).1 = t := by rw [h]
        have h2 : t.name = TokenName.IDENTIFIER := by rw [← h1]; rfl
        rw [h2] at hop
        simp [isOpName] at hop
      · by_cases hd : isDigit (skipNontokens lex0).r = true
        · rw [nextToken_digit ha hd] at h
          simp only [Option.some.injEq] at h
          have h1 : (scanNumber (skipNontokens lex0)).1 = t := by rw [h]
          have h2 : t.name = TokenName.NUMBER := by rw [← h1]; rfl
          rw [h2] at hop
          simp [isOpName] at hop
        · by_cases hq : (skipNontokens lex0).r = 34
          · rw [nextToken_quote34 hq] at h
            cases hqg : quoteGo (lexMeasure (next (skipNontokens lex0)) + 1)
                (next (skipNontokens lex0)) with
            | none =>
              rw [scanQuote_eq_none hqg] at h
              cases h
            | some lex2 =>
              rw [scanQuote_eq_some hqg] at h
              by_cases hneg2 : lex2.r < 0
              · rw [if_pos hneg2] at h
                simp only [Option.some.injEq, Prod.mk.injEq] at h
                rw [← h.1] at hop
                simp [makeErrorToken, isOpName] at hop
              · rw [if_neg hneg2] at h
                simp only [Option.some.injEq, Prod.mk.injEq] at h
                rw [← h.1] at hop
                simp [isOpName] at hop
          · rw [nextToken_error_case hneg hg ha hd hq] at h
            simp only [Option.some.injEq, Prod.mk.injEq] at h
            rw [← h.1] at hop
            simp [makeErrorToken, isOpName] at hop

/-- Claim C4 witness: at the buffer `"+"` an operator token is returned and the
classified rune is ASCII with an in-bounds table index. -/
theorem C4_witness :
    0 ≤ (skipNontokens (newLexer [43])).r ∧
    ((skipNontokens (newLexer [43])).r).toNat < opTable.length ∧
    (skipNontokens (newLexer [43])).r < 128 :=
  C4_op_lookup_bounded (newLexer [43])
    { name := TokenName.PLUS, val := [43], pos := 0 }
    { buf := [43], r := -1, rpos := 1, nextpos := 1 } (by decide) (by decide)

/-- Claim C5 counterexample: on the buffer `"@"` (one unrecognized character)
the scan never reaches EndOfInput — the scanner does not advance past the
error — and the concatenation of gaps and token texts stays empty, so it does
not reconstruct the buffer. -/
theorem C5_counterexample :
    (scanConcat 50 (newLexer [64])).2 = false ∧ (scanConcat 50 (newLexer [64])).1 ≠ [64] := by
  refine ⟨by decide, by decide⟩

/-- Claim C5 (amended): whenever repeated calls reach EndOfInput, the
concatenation, in call order, of each call's skipped whitespace run followed by
its token's text reconstructs the original buffer exactly. -/
theorem C5_reconstruction (buf : List Nat) (n : Nat)
    (h : (scanConcat n (newLexer buf)).2 = true) :
    (scanConcat n (newLexer buf)).1 = buf := by
  have hmain := scanConcat_reconstructs n (newLexer buf) (Inv_newLexer buf) h
  rw [hmain]
  have hb : (newLexer buf).buf = buf := by rw [newLexer, next_buf]
  have hr : (newLexer buf).rpos = 0 := by
    rw [newLexer_eq]
    split
    · rfl
    · simp only []
      omega
  rw [hb, hr, extract_all]

/-- Claim C5 witness: the buffer `"ab 12\t\"+ \""` scans to EndOfInput and is
reconstructed exactly. -/
theorem C5_witness :
    (scanConcat 10 (newLexer [97, 98, 32, 49, 50, 9, 34, 43, 32, 34])).1
      = [97, 98, 32, 49, 50, 9, 34, 43, 32, 34] :=
  C5_reconstruction [97, 98, 32, 49, 50, 9, 34, 43, 32, 34] 10 (by decide)

/-- Claim C6: once a call has returned an EndOfInput token, any number of
further calls each return that same token (same offset) and leave the scanner
state unchanged. -/
theorem C6_eof_idempotent (lex0 : Lexer) (t : Token) (lex' : Lexer) (n : Nat)
    (h : nextToken lex0 = some (t, lex')) (hname : t.name = TokenName.EOF) :
    callN n lex' = (List.replicate n t, lex') := by
  obtain ⟨hneg, hl, ht⟩ := nextToken_eof_name t lex' h hname
  subst hl
  have hskip := skipNontokens_neg (skipNontokens lex0) hneg
  have hfix : nextToken (skipNontokens lex0) = some (t, skipNontokens lex0) := by
    rw [nextToken_eof (by rw [hskip]; exact hneg), hskip, ht]
  exact callN_eof_fixpoint _ t hfix n

/-- Claim C6 witness: on the empty buffer the first call returns EndOfInput
and three further calls return it again without changing the state. -/
theorem C6_witness :
    callN 3 (newLexer []) =
      (List.replicate 3 { name := TokenName.EOF, val := [], pos := 0 }, newLexer []) :=
  C6_eof_idempotent (newLexer []) { name := TokenName.EOF, val := [], pos := 0 }
    (newLexer []) 3 (by decide) rfl

/-- Claim C7: when classification begins at an ASCII letter or underscore,
NextToken returns an Identifier token whose text is the maximal run of ASCII
letters, digits and underscores starting at that character, at that
character's byte offset. -/
theorem C7_identifier_maximal_run (lex0 : Lexer) (hInv : Inv lex0)
    (ha : isAlpha (skipNontokens lex0).r = true) :
    (nextToken lex0).map Prod.fst = some
      { name := TokenName.IDENTIFIER,
        val := (lex0.buf.drop (skipNontokens lex0).rpos).takeWhile identByte,
        pos := (skipNontokens lex0).rpos } := by
  obtain ⟨hsI, hsb, _⟩ := skipNontokens_basic lex0 hInv
  rw [nextToken_alpha ha]
  simp only [Option.map_some']
  rw [scanIdentifier_val _ hsI, hsb]

/-- Claim C7 witness: the buffer `"a_9z!"` yields the identifier `a_9z` at
offset 0. -/
theorem C7_witness :
    (nextToken (newLexer [97, 95, 57, 122, 33])).map Prod.fst = some
      { name := TokenName.IDENTIFIER, val := [97, 95, 57, 122], pos := 0 } := by
  have := C7_identifier_maximal_run (newLexer [97, 95, 57, 122, 33]) (by decide) (by decide)
  exact this

/-- Claim C8: when classification begins at a double quote and a closing
double quote occurs later in the buffer (the first one at position `p`),
NextToken returns a QuotedString token whose text is the full span including
both quotes at the opening quote's offset; a backslash inside the span has no
special meaning, since only a double-quote byte terminates the scan. -/
theorem C8_quoted_string (lex0 : Lexer) (p : Nat) (hInv : Inv lex0)
    (hq : (skipNontokens lex0).r = 34)
    (hp1 : (skipNontokens lex0).rpos + 1 ≤ p) (hplen : p < lex0.buf.length)
    (hp34 : byteAt lex0.buf p = 34)
    (hfirst : ∀ q, (skipNontokens lex0).rpos + 1 ≤ q → q < p → byteAt lex0.buf q ≠ 34) :
    (nextToken lex0).map Prod.fst = some
      { name := TokenName.QUOTE,
        val := extract lex0.buf (skipNontokens lex0).rpos (p + 1),
        pos := (skipNontokens lex0).rpos } := by
  obtain ⟨hsI, hsb, _⟩ := skipNontokens_basic lex0 hInv
  rw [nextToken_quote34 hq]
  have hmain := scanQuote_finds (skipNontokens lex0) p hsI hq hp1
    (by rw [hsb]; exact hplen) (by rw [hsb]; exact hp34)
    (fun q h1 h2 => by rw [hsb]; exact hfirst q h1 h2)
  rw [hsb] at hmain
  exact hmain

/-- Claim C8 witness: the buffer `"a\"x` (quote, a, backslash, quote, x)
yields the quoted string `"a\"` at offset 0 — the backslash does not protect
the embedded quote. -/
theorem C8_witness :
    (nextToken (newLexer [34, 97, 92, 34, 120])).map Prod.fst = some
      { name := TokenName.QUOTE, val := [34, 97, 92, 34], pos := 0 } := by
  have := C8_quoted_string (newLexer [34, 97, 92, 34, 120]) 3 (by decide) (by decide)
    (by decide) (by decide) (by decide)
    (by
      intro q h1 h2
      have h0 : (skipNontokens (newLexer [34, 97, 92, 34, 120])).rpos = 0 := by decide
      rw [h0] at h1
      interval_cases q <;> decide)
  exact this

/-- Claim C9: any two consecutive tokens `t1, t2` produced by one scan satisfy
`t2.pos ≥ t1.pos + length t1.val`. -/
theorem C9_offset_monotone (buf : List Nat) (n : Nat) :
    List.Chain' (fun t1 t2 => t1.pos + t1.val.length ≤ t2.pos) (tokensN n (newLexer buf)) :=
  (callN_chain n (newLexer buf) (Inv_newLexer buf)).1

/-- Claim C10: inside a quoted string every character up to the closing quote
is consumed without classification — whitespace, operator characters and
multi-byte sequences between the quotes appear verbatim in the token text. -/
theorem C10_quote_verbatim (mid : List Nat) (hmid : ¬ 34 ∈ mid) :
    (nextToken (newLexer (34 :: mid ++ [34]))).map Prod.fst = some
      { name := TokenName.QUOTE, val := 34 :: mid ++ [34], pos := 0 } := by
  have hlen : 0 < (34 :: mid ++ [34]).length := by simp
  have hb0 : byteAt (34 :: mid ++ [34]) 0 = 34 := rfl
  have hdec0 : lexDecode (34 :: mid ++ [34]) 0 = ((34 : Int), 1) := by
    have hx := lexDecode_of_small (34 :: mid ++ [34]) 0 hlen (by rw [hb0]; omega)
    rw [hb0] at hx
    exact hx
  have hnew : newLexer (34 :: mid ++ [34]) =
      { buf := 34 :: mid ++ [34], r := 34, rpos := 0, nextpos := 1 } := by
    rw [newLexer_eq, if_pos hlen, hdec0]
  have hskip : skipNontokens (newLexer (34 :: mid ++ [34])) = newLexer (34 :: mid ++ [34]) := by
    rw [hnew]
    apply skipNontokens_id
    show ¬((34 : Int) = 32 ∨ (34 : Int) = 9 ∨ (34 : Int) = 10 ∨ (34 : Int) = 13)
    decide
  have hlength : (34 :: mid ++ [34]).length = mid.length + 2 := by simp
  rw [nextToken_quote34 (by rw [hskip, hnew]), hskip, hnew]
  have hmain := scanQuote_finds
    { buf := 34 :: mid ++ [34], r := 34, rpos := 0, nextpos := 1 } (mid.length + 1)
    (by rw [← hnew]; exact Inv_newLexer _) rfl
    (by show 0 + 1 ≤ mid.length + 1; omega)
    (by show mid.length + 1 < (34 :: mid ++ [34]).length; rw [hlength]; omega)
    (by
      show byteAt (34 :: mid ++ [34]) (mid.length + 1) = 34
      rw [List.cons_append, byteAt_cons_succ, byteAt_append_last])
    (by
      intro q h1 h2
      have h1x : 0 + 1 ≤ q := h1
      show byteAt (34 :: mid ++ [34]) q ≠ 34
      obtain ⟨k, hk⟩ : ∃ k, q = k + 1 := ⟨q - 1, by omega⟩
      subst hk
      rw [List.cons_append, byteAt_cons_succ, byteAt_append_left mid [34] k (by omega)]
      intro hcon
      rw [← hcon] at hmid
      exact hmid (byteAt_mem mid k (by omega)))
  have hmain2 : (scanQuote { buf := 34 :: mid ++ [34], r := 34, rpos := 0, nextpos := 1 }).map
        Prod.fst
      = some { name := TokenName.QUOTE,
               val := extract (34 :: mid ++ [34]) 0 (mid.length + 1 + 1), pos := 0 } := hmain
  have hval : extract (34 :: mid ++ [34]) 0 (mid.length + 1 + 1) = 34 :: mid ++ [34] := by
    have h2 : mid.length + 1 + 1 = (34 :: mid ++ [34]).length := by simp
    rw [h2, extract_all]
  rw [hval] at hmain2
  exact hmain2

/-- Claim C10 witness: a quoted string containing space, tab, newline,
carriage return, `+` and the 3-byte character `本` is returned verbatim. -/
theorem C10_witness :
    (nextToken (newLexer [34, 32, 9, 10, 13, 43, 230, 156, 172, 34])).map Prod.fst = some
      { name := TokenName.QUOTE, val := [34, 32, 9, 10, 13, 43, 230, 156, 172, 34],
        pos := 0 } := by
  have := C10_quote_verbatim [32, 9, 10, 13, 43, 230, 156, 172] (by decide)
  exact this

end TblgenLexer
